import Mathlib

/-!
Verification of the systematic Reed-Solomon erasure codec of this repository
(the engine behind `common/reed_solomon.h`, exercised by
`common/reed_solomon_unittest.cc`).  The implementation header itself is not
part of the source tree here — only its unit test is — so the codec is
modelled from the specification (field arithmetic §4.1, matrix algebra §4.2,
erasure patterns §4.3, the `encode`/`recover` codec §4.4) and the claims are
settled against that model.
-/

namespace RS

set_option maxRecDepth 100000

/-! ### GF(2^8) arithmetic on raw bytes (natural numbers below 256) -/

/-- Modelled from the spec: multiplication by the monomial x in GF(2^8)
(§3 "an 8-bit value interpreted as an element of GF(2^8) under a fixed
irreducible polynomial"); the fixed irreducible polynomial is
x^8 + x^4 + x^3 + x^2 + 1, i.e. 0x11D = 285. -/
def xtimeN (a : Nat) : Nat := if 128 ≤ a then (2 * a) ^^^ 285 else 2 * a

/-- Russian-peasant product scaffold; 8 fuel steps cover multipliers
below 256. -/
def mulAux : Nat → Nat → Nat → Nat
  | 0, _, _ => 0
  | f+1, a, b => (if b % 2 = 1 then a else 0) ^^^ mulAux f (xtimeN a) (b / 2)

/-- Modelled from the spec: `multiply(a, b)`, the GF(2^8) field product of two
bytes (§4.1). -/
def mulN (a b : Nat) : Nat := mulAux 8 a b

/-- Binary exponentiation in GF(2^8), fuel on the bit length of the
exponent. -/
def powAux : Nat → Nat → Nat → Nat
  | 0, _, _ => 1
  | f+1, a, n =>
    if n = 0 then 1
    else if n % 2 = 1 then mulN a (powAux f (mulN a a) (n / 2))
    else powAux f (mulN a a) (n / 2)

def powN (a n : Nat) : Nat := powAux 8 a n

/-- Byte inverse, as the 254-th power (the field has 256 elements). -/
def invN (a : Nat) : Nat := powN a 254

theorem xor_lt_256 {x y : Nat} (hx : x < 256) (hy : y < 256) : x ^^^ y < 256 :=
  Nat.xor_lt_two_pow (n := 8) hx hy

theorem xor_mix (a b c d : Nat) :
    (a ^^^ b) ^^^ (c ^^^ d) = (a ^^^ c) ^^^ (b ^^^ d) := by
  rw [Nat.xor_assoc, Nat.xor_assoc]
  congr 1
  rw [← Nat.xor_assoc, ← Nat.xor_assoc]
  congr 1
  exact Nat.xor_comm b c

theorem two_pow_add_xor {i r : Nat} (hr : r < 2 ^ i) :
    (2 ^ i + r) ^^^ 2 ^ i = r := by
  apply Nat.eq_of_testBit_eq
  intro j
  rcases Nat.lt_trichotomy j i with hj | rfl | hj
  · rw [Nat.testBit_xor, Nat.testBit_two_pow_add_gt hj,
      Nat.testBit_two_pow_of_ne (Nat.ne_of_gt hj)]
    simp
  · rw [Nat.testBit_xor, Nat.testBit_two_pow_add_eq, Nat.testBit_two_pow_self,
      Nat.testBit_lt_two_pow hr]
    simp
  · have h1 : 2 ^ i + r < 2 ^ j := by
      have : 2 ^ (i + 1) ≤ 2 ^ j := Nat.pow_le_pow_right (by omega) (by omega)
      have h2 : 2 ^ (i + 1) = 2 ^ i * 2 := Nat.pow_succ ..
      omega
    rw [Nat.testBit_xor, Nat.testBit_lt_two_pow h1,
      Nat.testBit_two_pow_of_ne (Nat.ne_of_lt hj),
      Nat.testBit_lt_two_pow (by
        have : 2 ^ i ≤ 2 ^ j := Nat.pow_le_pow_right (by omega) (by omega)
        omega)]
    rfl

theorem sub_two_pow_xor {x : Nat} (hlo : 256 ≤ x) (hhi : x < 512) :
    x ^^^ 256 = x - 256 := by
  have hpow : (2 : Nat) ^ 8 = 256 := by norm_num
  have h := two_pow_add_xor (i := 8) (r := x - 256) (by omega)
  rw [hpow] at h
  rw [show 256 + (x - 256) = x from by omega] at h
  exact h

theorem xtimeN_lt (a : Nat) (ha : a < 256) : xtimeN a < 256 := by
  unfold xtimeN
  split
  · rename_i h128
    have h285 : (285 : Nat) = 256 ^^^ 29 := rfl
    rw [h285, ← Nat.xor_assoc, sub_two_pow_xor (by omega) (by omega)]
    exact xor_lt_256 (by omega) (by omega)
  · omega

theorem mulAux_lt : ∀ f a b, a < 256 → mulAux f a b < 256
  | 0, _, _, _ => by simp [mulAux]
  | f+1, a, b, ha => by
    have h1 : (if b % 2 = 1 then a else 0) < 256 := by split <;> omega
    exact xor_lt_256 h1 (mulAux_lt f (xtimeN a) (b / 2) (xtimeN_lt a ha))

theorem mulN_lt {a : Nat} (b : Nat) (ha : a < 256) : mulN a b < 256 :=
  mulAux_lt 8 a b ha

theorem powAux_lt : ∀ f a n, a < 256 → powAux f a n < 256
  | 0, _, _, _ => by simp [powAux]
  | f+1, a, n, ha => by
    simp only [powAux]
    split
    · omega
    · split
      · exact mulN_lt _ ha
      · exact powAux_lt f (mulN a a) (n / 2) (mulN_lt _ ha)

theorem invN_lt {a : Nat} (ha : a < 256) : invN a < 256 := powAux_lt 8 a 254 ha

theorem mulAux_zero_right : ∀ f a, mulAux f a 0 = 0
  | 0, _ => rfl
  | f+1, a => by simp [mulAux, mulAux_zero_right f]

theorem mulAux_zero_left : ∀ f b, mulAux f 0 b = 0
  | 0, _ => rfl
  | f+1, b => by
    have hx : xtimeN 0 = 0 := rfl
    simp [mulAux, hx, mulAux_zero_left f]

theorem mulN_zero (a : Nat) : mulN a 0 = 0 := mulAux_zero_right 8 a

theorem zero_mulN (b : Nat) : mulN 0 b = 0 := mulAux_zero_left 8 b

theorem mulN_one (a : Nat) : mulN a 1 = a := by
  show mulAux 8 a 1 = a
  simp [mulAux, mulAux_zero_right]

theorem two_mul_xor (x y : Nat) : 2 * (x ^^^ y) = 2 * x ^^^ 2 * y := by
  apply Nat.eq_of_testBit_eq
  intro i
  cases i with
  | zero =>
    rw [Nat.testBit_zero, Nat.testBit_xor, Nat.testBit_zero, Nat.testBit_zero,
      Nat.mul_mod_right, Nat.mul_mod_right, Nat.mul_mod_right]
    rfl
  | succ i =>
    rw [Nat.testBit_succ, Nat.testBit_xor, Nat.testBit_succ, Nat.testBit_succ,
      Nat.mul_div_cancel_left _ (by omega : 0 < 2),
      Nat.mul_div_cancel_left _ (by omega : 0 < 2),
      Nat.mul_div_cancel_left _ (by omega : 0 < 2), Nat.testBit_xor]

theorem testBit7_of_ge {x : Nat} (hlo : 128 ≤ x) (hhi : x < 256) :
    x.testBit 7 = true := by
  rw [Nat.testBit_to_div_mod]
  have hdiv : x / 2 ^ 7 = 1 := by
    have h7 : (2 : Nat) ^ 7 = 128 := by norm_num
    rw [h7]
    omega
  rw [hdiv]
  rfl

theorem xor_high_high {x y : Nat} (hx1 : 128 ≤ x) (hx2 : x < 256)
    (hy1 : 128 ≤ y) (hy2 : y < 256) : x ^^^ y < 128 := by
  have h7 : (2 : Nat) ^ 7 = 128 := by norm_num
  have hxx : x ^^^ 128 = x - 128 := by
    have h := two_pow_add_xor (i := 7) (r := x - 128) (by omega)
    rw [h7] at h
    rw [show 128 + (x - 128) = x from by omega] at h
    exact h
  have hyy : y ^^^ 128 = y - 128 := by
    have h := two_pow_add_xor (i := 7) (r := y - 128) (by omega)
    rw [h7] at h
    rw [show 128 + (y - 128) = y from by omega] at h
    exact h
  have hsplit : x ^^^ y = (x ^^^ 128) ^^^ (y ^^^ 128) := by
    rw [xor_mix, Nat.xor_self, Nat.xor_zero]
  rw [hsplit, hxx, hyy]
  have := Nat.xor_lt_two_pow (n := 7)
    (x := x - 128) (y := y - 128) (by omega) (by omega)
  omega

theorem xor_high_low {x y : Nat} (hx1 : 128 ≤ x) (hx2 : x < 256)
    (hy1 : y < 128) : 128 ≤ x ^^^ y := by
  by_contra hlt
  have h7 : (2 : Nat) ^ 7 = 128 := by norm_num
  have hb : (x ^^^ y).testBit 7 = false := by
    apply Nat.testBit_lt_two_pow
    rw [h7]
    omega
  have hbx := testBit7_of_ge hx1 hx2
  have hby : y.testBit 7 = false := by
    apply Nat.testBit_lt_two_pow
    rw [h7]
    omega
  rw [Nat.testBit_xor, hbx, hby] at hb
  exact Bool.noConfusion hb

theorem xtimeN_additive : ∀ x, x < 256 → ∀ y, y < 256 →
    xtimeN (x ^^^ y) = xtimeN x ^^^ xtimeN y := by
  intro x hx y hy
  unfold xtimeN
  by_cases hx1 : 128 ≤ x <;> by_cases hy1 : 128 ≤ y
  · rw [if_neg (show ¬ 128 ≤ x ^^^ y from by
        have := xor_high_high hx1 hx hy1 hy
        omega),
      if_pos hx1, if_pos hy1, two_mul_xor, xor_mix, Nat.xor_self,
      Nat.xor_zero]
  · rw [if_pos (xor_high_low hx1 hx (by omega)), if_pos hx1, if_neg hy1,
      two_mul_xor, Nat.xor_assoc, Nat.xor_assoc]
    congr 1
    exact Nat.xor_comm _ _
  · rw [if_pos (show 128 ≤ x ^^^ y from by
        have h := xor_high_low hy1 hy (show x < 128 from by omega)
        rwa [Nat.xor_comm y x] at h),
      if_neg hx1, if_pos hy1, two_mul_xor, Nat.xor_assoc]
  · rw [if_neg (show ¬ 128 ≤ x ^^^ y from by
        have := Nat.xor_lt_two_pow (n := 7) (x := x) (y := y)
          (by omega) (by omega)
        omega),
      if_neg hx1, if_neg hy1, two_mul_xor]

theorem mulAux_xor_left : ∀ f x y b, x < 256 → y < 256 →
    mulAux f (x ^^^ y) b = mulAux f x b ^^^ mulAux f y b
  | 0, _, _, _, _, _ => by simp [mulAux]
  | f+1, x, y, b, hx, hy => by
    simp only [mulAux]
    rw [xtimeN_additive x hx y hy,
      mulAux_xor_left f _ _ (b / 2) (xtimeN_lt x hx) (xtimeN_lt y hy)]
    have hsplit : (if b % 2 = 1 then x ^^^ y else 0) =
        (if b % 2 = 1 then x else 0) ^^^ (if b % 2 = 1 then y else 0) := by
      split <;> simp
    rw [hsplit]
    exact xor_mix _ _ _ _

theorem xor_div_two (x y : Nat) : (x ^^^ y) / 2 = x / 2 ^^^ y / 2 := by
  apply Nat.eq_of_testBit_eq
  intro i
  rw [Nat.testBit_div_two, Nat.testBit_xor, Nat.testBit_xor,
    Nat.testBit_div_two, Nat.testBit_div_two]

theorem xor_mod_two (x y : Nat) : (x ^^^ y) % 2 = x % 2 ^^^ y % 2 := by
  rw [Nat.xor_mod_two_eq, Nat.add_mod]
  rcases Nat.mod_two_eq_zero_or_one x with hx | hx <;>
    rcases Nat.mod_two_eq_zero_or_one y with hy | hy <;>
    rw [hx, hy] <;> rfl

theorem mulAux_xor_right : ∀ f a x y,
    mulAux f a (x ^^^ y) = mulAux f a x ^^^ mulAux f a y
  | 0, _, _, _ => by simp [mulAux]
  | f+1, a, x, y => by
    simp only [mulAux]
    rw [xor_div_two, mulAux_xor_right f (xtimeN a) (x / 2) (y / 2), xor_mod_two]
    have hsplit : (if x % 2 ^^^ y % 2 = 1 then a else 0) =
        (if x % 2 = 1 then a else 0) ^^^ (if y % 2 = 1 then a else 0) := by
      rcases Nat.mod_two_eq_zero_or_one x with hx | hx <;>
        rcases Nat.mod_two_eq_zero_or_one y with hy | hy <;>
        simp [hx, hy, Nat.xor_self, Nat.zero_xor, Nat.xor_zero]
    rw [hsplit]
    exact xor_mix _ _ _ _

/-- Every byte is an XOR of powers of two below 2^8; induction principle used
to extend bilinear identities from the monomial basis. -/
theorem bit_induction {P : Nat → Prop} (h0 : P 0) (hpow : ∀ i, i < 8 → P (2 ^ i))
    (hxor : ∀ x y, x < 256 → y < 256 → P x → P y → P (x ^^^ y))
    (a : Nat) (ha : a < 256) : P a := by
  revert ha
  induction a using Nat.strong_induction_on with
  | _ a IH =>
    intro ha
    rcases Nat.eq_zero_or_pos a with rfl | hpos
    · exact h0
    · have hne : a ≠ 0 := by omega
      have h1 : 2 ^ a.log2 ≤ a := Nat.log2_self_le hne
      have h2 : a < 2 ^ (a.log2 + 1) := Nat.lt_log2_self
      have hi8 : a.log2 < 8 := by
        rw [Nat.log2_lt hne]
        exact lt_of_lt_of_le ha (by norm_num)
      have hps : 2 ^ (a.log2 + 1) = 2 ^ a.log2 * 2 := Nat.pow_succ ..
      have hrlt : a - 2 ^ a.log2 < 2 ^ a.log2 := by omega
      have hxor_eq : a ^^^ 2 ^ a.log2 = a - 2 ^ a.log2 := by
        have hsplit : a = 2 ^ a.log2 + (a - 2 ^ a.log2) := by omega
        calc a ^^^ 2 ^ a.log2
            = (2 ^ a.log2 + (a - 2 ^ a.log2)) ^^^ 2 ^ a.log2 := by rw [← hsplit]
          _ = a - 2 ^ a.log2 := two_pow_add_xor hrlt
      have ha2 : a = 2 ^ a.log2 ^^^ (a ^^^ 2 ^ a.log2) := by
        rw [Nat.xor_comm a, ← Nat.xor_assoc, Nat.xor_self, Nat.zero_xor]
      rw [ha2]
      refine hxor _ _ (lt_of_le_of_lt h1 ha) (by rw [hxor_eq]; omega)
        (hpow _ hi8) ?_
      rw [hxor_eq]
      exact IH _ (by omega) (by omega)

theorem of_allb {n : Nat} {f : Nat → Bool}
    (h : (List.range n).all f = true) : ∀ x, x < n → f x = true :=
  fun x hx => List.all_eq_true.mp h x (List.mem_range.mpr hx)

theorem beq_true_eq {a b : Nat} (h : (a == b) = true) : a = b :=
  of_decide_eq_true h

theorem mulN_pow_comm_b :
    ((List.range 8).all fun i => (List.range 8).all fun j =>
      mulN (2 ^ i) (2 ^ j) == mulN (2 ^ j) (2 ^ i)) = true := rfl

theorem mulN_pow_comm : ∀ i, i < 8 → ∀ j, j < 8 →
    mulN (2 ^ i) (2 ^ j) = mulN (2 ^ j) (2 ^ i) := by
  intro i hi j hj
  exact beq_true_eq (of_allb (of_allb mulN_pow_comm_b i hi) j hj)

theorem mulN_pow_comm' (b : Nat) (hb : b < 256) : ∀ i, i < 8 →
    mulN (2 ^ i) b = mulN b (2 ^ i) := by
  refine bit_induction (P := fun b => ∀ i, i < 8 → mulN (2 ^ i) b = mulN b (2 ^ i))
    ?_ ?_ ?_ b hb
  · intro i _
    rw [mulN_zero, zero_mulN]
  · intro j hj i hi
    exact mulN_pow_comm i hi j hj
  · intro x y hx hy ihx ihy i hi
    calc mulN (2 ^ i) (x ^^^ y)
        = mulN (2 ^ i) x ^^^ mulN (2 ^ i) y := mulAux_xor_right 8 _ x y
      _ = mulN x (2 ^ i) ^^^ mulN y (2 ^ i) := by rw [ihx i hi, ihy i hi]
      _ = mulN (x ^^^ y) (2 ^ i) := (mulAux_xor_left 8 x y _ hx hy).symm

theorem mulN_comm (a : Nat) (ha : a < 256) : ∀ b, b < 256 → mulN a b = mulN b a := by
  refine bit_induction (P := fun a => ∀ b, b < 256 → mulN a b = mulN b a)
    ?_ ?_ ?_ a ha
  · intro b _
    rw [mulN_zero, zero_mulN]
  · intro i hi b hb
    exact mulN_pow_comm' b hb i hi
  · intro x y hx hy ihx ihy b hb
    calc mulN (x ^^^ y) b
        = mulN x b ^^^ mulN y b := mulAux_xor_left 8 x y b hx hy
      _ = mulN b x ^^^ mulN b y := by rw [ihx b hb, ihy b hb]
      _ = mulN b (x ^^^ y) := (mulAux_xor_right 8 b x y).symm

theorem mulN_xor_left (x y b : Nat) (hx : x < 256) (hy : y < 256) :
    mulN (x ^^^ y) b = mulN x b ^^^ mulN y b := mulAux_xor_left 8 x y b hx hy

theorem mulN_xor_right (a x y : Nat) :
    mulN a (x ^^^ y) = mulN a x ^^^ mulN a y := mulAux_xor_right 8 a x y

theorem mulN_pow_assoc_b :
    ((List.range 8).all fun i => (List.range 8).all fun j =>
      (List.range 8).all fun l =>
        mulN (mulN (2 ^ i) (2 ^ j)) (2 ^ l)
          == mulN (2 ^ i) (mulN (2 ^ j) (2 ^ l))) = true := rfl

theorem mulN_pow_assoc : ∀ i, i < 8 → ∀ j, j < 8 → ∀ l, l < 8 →
    mulN (mulN (2 ^ i) (2 ^ j)) (2 ^ l) = mulN (2 ^ i) (mulN (2 ^ j) (2 ^ l)) := by
  intro i hi j hj l hl
  exact beq_true_eq
    (of_allb (of_allb (of_allb mulN_pow_assoc_b i hi) j hj) l hl)

theorem two_pow_lt_256 {i : Nat} (hi : i < 8) : 2 ^ i < 256 := by
  have : 2 ^ i ≤ 2 ^ 7 := Nat.pow_le_pow_right (by omega) (by omega)
  omega

theorem mulN_pow_assoc' (i : Nat) (hi : i < 8) (j : Nat) (hj : j < 8)
    (c : Nat) (hc : c < 256) :
    mulN (mulN (2 ^ i) (2 ^ j)) c = mulN (2 ^ i) (mulN (2 ^ j) c) := by
  refine bit_induction
    (P := fun c => mulN (mulN (2 ^ i) (2 ^ j)) c = mulN (2 ^ i) (mulN (2 ^ j) c))
    ?_ ?_ ?_ c hc
  · show mulN (mulN (2 ^ i) (2 ^ j)) 0 = mulN (2 ^ i) (mulN (2 ^ j) 0)
    rw [mulN_zero, mulN_zero, mulN_zero]
  · intro l hl
    exact mulN_pow_assoc i hi j hj l hl
  · intro x y hx hy ihx ihy
    calc mulN (mulN (2 ^ i) (2 ^ j)) (x ^^^ y)
        = mulN (mulN (2 ^ i) (2 ^ j)) x ^^^ mulN (mulN (2 ^ i) (2 ^ j)) y :=
          mulN_xor_right _ x y
      _ = mulN (2 ^ i) (mulN (2 ^ j) x) ^^^ mulN (2 ^ i) (mulN (2 ^ j) y) := by
          rw [ihx, ihy]
      _ = mulN (2 ^ i) (mulN (2 ^ j) x ^^^ mulN (2 ^ j) y) :=
          (mulN_xor_right _ _ _).symm
      _ = mulN (2 ^ i) (mulN (2 ^ j) (x ^^^ y)) := by
          rw [← mulN_xor_right (2 ^ j) x y]

theorem mulN_pow_assoc2 (i : Nat) (hi : i < 8) (b : Nat) (hb : b < 256) :
    ∀ c, c < 256 → mulN (mulN (2 ^ i) b) c = mulN (2 ^ i) (mulN b c) := by
  refine bit_induction
    (P := fun b => ∀ c, c < 256 → mulN (mulN (2 ^ i) b) c = mulN (2 ^ i) (mulN b c))
    ?_ ?_ ?_ b hb
  · intro c _
    rw [mulN_zero, zero_mulN, mulN_zero]
  · intro j hj c hc
    exact mulN_pow_assoc' i hi j hj c hc
  · intro x y hx hy ihx ihy c hc
    have hix : mulN (2 ^ i) x < 256 := mulN_lt _ (two_pow_lt_256 hi)
    have hiy : mulN (2 ^ i) y < 256 := mulN_lt _ (two_pow_lt_256 hi)
    calc mulN (mulN (2 ^ i) (x ^^^ y)) c
        = mulN (mulN (2 ^ i) x ^^^ mulN (2 ^ i) y) c := by rw [mulN_xor_right]
      _ = mulN (mulN (2 ^ i) x) c ^^^ mulN (mulN (2 ^ i) y) c :=
          mulN_xor_left _ _ c hix hiy
      _ = mulN (2 ^ i) (mulN x c) ^^^ mulN (2 ^ i) (mulN y c) := by
          rw [ihx c hc, ihy c hc]
      _ = mulN (2 ^ i) (mulN x c ^^^ mulN y c) := (mulN_xor_right _ _ _).symm
      _ = mulN (2 ^ i) (mulN (x ^^^ y) c) := by
          rw [← mulN_xor_left x y c hx hy]

theorem mulN_assoc (a : Nat) (ha : a < 256) (b : Nat) (hb : b < 256)
    (c : Nat) (hc : c < 256) : mulN (mulN a b) c = mulN a (mulN b c) := by
  refine bit_induction
    (P := fun a => ∀ b, b < 256 → ∀ c, c < 256 →
      mulN (mulN a b) c = mulN a (mulN b c))
    ?_ ?_ ?_ a ha b hb c hc
  · intro b _ c _
    rw [zero_mulN, zero_mulN, zero_mulN]
  · intro i hi b2 hb2 c2 hc2
    exact mulN_pow_assoc2 i hi b2 hb2 c2 hc2
  · intro x y hx hy ihx ihy b2 hb2 c2 hc2
    have hxb : mulN x b2 < 256 := mulN_lt _ hx
    have hyb : mulN y b2 < 256 := mulN_lt _ hy
    calc mulN (mulN (x ^^^ y) b2) c2
        = mulN (mulN x b2 ^^^ mulN y b2) c2 := by
          rw [mulN_xor_left x y b2 hx hy]
      _ = mulN (mulN x b2) c2 ^^^ mulN (mulN y b2) c2 :=
          mulN_xor_left _ _ c2 hxb hyb
      _ = mulN x (mulN b2 c2) ^^^ mulN y (mulN b2 c2) := by
          rw [ihx b2 hb2 c2 hc2, ihy b2 hb2 c2 hc2]
      _ = mulN (x ^^^ y) (mulN b2 c2) := (mulN_xor_left x y _ hx hy).symm

theorem mulN_invN_b :
    ((List.range 256).all fun a =>
      (a == 0) || (mulN a (invN a) == 1)) = true := rfl

theorem mulN_invN : ∀ a, a < 256 → a ≠ 0 → mulN a (invN a) = 1 := by
  intro a ha h0
  have h1 := of_allb mulN_invN_b a ha
  cases hb : (a == 0) with
  | true => exact absurd (beq_true_eq hb) h0
  | false =>
    have h2 : ((a == 0) || (mulN a (invN a) == 1)) = true := h1
    rw [hb, Bool.false_or] at h2
    exact beq_true_eq h2

theorem invN_zero : invN 0 = 0 := rfl

/-! ### The field GF(2^8) as a type -/

/-- Modelled from the spec: a field element, "an 8-bit value interpreted as an
element of GF(2^8) under a fixed irreducible polynomial" (§3). -/
structure GF where
  val : Nat
  isLt : val < 256
deriving DecidableEq

theorem GF.eq_of_val_eq : ∀ {a b : GF}, a.val = b.val → a = b := by
  intro a b h
  cases a
  cases b
  simp_all

instance : Zero GF := ⟨⟨0, by omega⟩⟩

instance : One GF := ⟨⟨1, by omega⟩⟩

/-- Modelled from the spec: `add(a, b)`, bitwise XOR (§4.1). -/
def GF.add (a b : GF) : GF := ⟨a.val ^^^ b.val, xor_lt_256 a.isLt b.isLt⟩

/-- Modelled from the spec: `multiply(a, b)`, the field product (§4.1). -/
def GF.multiply (a b : GF) : GF := ⟨mulN a.val b.val, mulN_lt _ a.isLt⟩

/-- Modelled from the spec: `inverse(a)`, defined for nonzero `a` and failing
(`none`) for `a = 0` (§4.1). -/
def GF.inverse (a : GF) : Option GF :=
  if a = 0 then none else some ⟨invN a.val, invN_lt a.isLt⟩

instance : Add GF := ⟨GF.add⟩

instance : Mul GF := ⟨GF.multiply⟩

instance : Neg GF := ⟨fun a => a⟩

instance : Inv GF := ⟨fun a => ⟨invN a.val, invN_lt a.isLt⟩⟩

@[simp] theorem GF.val_zero : (0 : GF).val = 0 := rfl

@[simp] theorem GF.val_one : (1 : GF).val = 1 := rfl

@[simp] theorem GF.val_add (a b : GF) : (a + b).val = a.val ^^^ b.val := rfl

@[simp] theorem GF.val_mul (a b : GF) : (a * b).val = mulN a.val b.val := rfl

@[simp] theorem GF.val_neg (a : GF) : (-a).val = a.val := rfl

@[simp] theorem GF.val_inv (a : GF) : (a⁻¹).val = invN a.val := rfl

instance : CommRing GF where
  add_assoc a b c := GF.eq_of_val_eq (Nat.xor_assoc a.val b.val c.val)
  zero_add a := GF.eq_of_val_eq (Nat.zero_xor a.val)
  add_zero a := GF.eq_of_val_eq (Nat.xor_zero a.val)
  add_comm a b := GF.eq_of_val_eq (Nat.xor_comm a.val b.val)
  neg_add_cancel a := GF.eq_of_val_eq (Nat.xor_self a.val)
  mul_assoc a b c :=
    GF.eq_of_val_eq (mulN_assoc a.val a.isLt b.val b.isLt c.val c.isLt)
  mul_comm a b := GF.eq_of_val_eq (mulN_comm a.val a.isLt b.val b.isLt)
  one_mul a := GF.eq_of_val_eq (by
    rw [GF.val_mul, GF.val_one, mulN_comm 1 (by omega) a.val a.isLt, mulN_one])
  mul_one a := GF.eq_of_val_eq (mulN_one a.val)
  left_distrib a b c := GF.eq_of_val_eq (mulAux_xor_right 8 a.val b.val c.val)
  right_distrib a b c :=
    GF.eq_of_val_eq (mulAux_xor_left 8 a.val b.val c.val a.isLt b.isLt)
  zero_mul a := GF.eq_of_val_eq (zero_mulN a.val)
  mul_zero a := GF.eq_of_val_eq (mulN_zero a.val)
  nsmul := nsmulRec
  zsmul := zsmulRec

instance : Field GF where
  exists_pair_ne := ⟨0, 1, by decide⟩
  mul_inv_cancel a h := GF.eq_of_val_eq (by
    rw [GF.val_mul, GF.val_inv, GF.val_one]
    exact mulN_invN a.val a.isLt (fun hv => h (GF.eq_of_val_eq hv)))
  inv_zero := GF.eq_of_val_eq (by rw [GF.val_inv, GF.val_zero, invN_zero])
  nnqsmul := _
  qsmul := _

/-! ### Buffers, erasure patterns, and the error taxonomy -/

/-- A fragment buffer: the byte at each position; only positions below the
call's `size` are meaningful (§3 "Fragment"). -/
abbrev Bytes : Type := Nat → GF

/-- The all-zero buffer that a zero-input slot stands for (§3). -/
def zeroBytes : Bytes := fun _ => 0

/-- Modelled from the spec: the error taxonomy of §7. -/
inductive RsError where
  | InvalidDimensions
  | InsufficientFragments
  | TooManyErasures
  | SingularMatrix
deriving DecidableEq

/-- Modelled from the spec: `multiply_accumulate_region(dst, src, scalar,
length)` sets `dst[i] = add(dst[i], multiply(src[i], scalar))` for every `i`
below `length` and leaves the rest of `dst` untouched (§4.1). -/
def multiply_accumulate_region (dst src : Bytes) (scalar : GF) (len : Nat) :
    Bytes :=
  fun i => if i < len then dst i + src i * scalar else dst i

/-! ### The generator matrix -/

/-- Evaluation point of slot `r`: the byte with value `r` (slots number fewer
than 256, so the points are pairwise distinct). -/
def node (r : Nat) : GF := ⟨r % 256, Nat.mod_lt _ (by omega)⟩

/-- Modelled from the spec: the generator entry, the Lagrange basis value
L_c(x) for the interpolation nodes `node 0, …, node (k-1)` (§4.2; the exact
construction is left open by the spec — "implementers may choose freely as
long as … every size-k subset of its rows is invertible"). -/
def lagEval (k : Nat) (c : Fin k) (x : GF) : GF :=
  ∏ j ∈ Finset.univ.erase c, (x - node j.val) * (node c.val - node j.val)⁻¹

/-- Modelled from the spec: `build_generator(k, m)`, the (k+m)×k generator
matrix; row r is the vector of Lagrange basis values at `node r`, so the top
k×k block is the identity and every k rows are linearly independent (§3,
§4.2). -/
def build_generator (k m : Nat) : Matrix (Fin (k + m)) (Fin k) GF :=
  Matrix.of fun r c => lagEval k c (node r.val)

/-! ### encode -/

/-- Shared encoding core: fill parity slot `j` by multiply-accumulating each
data fragment scaled by its generator entry, after overwriting the
destination region with zeroes (§4.4 `encode`: "content is overwritten, not
read"). -/
def encodeG {k m : Nat} (gen : Matrix (Fin (k + m)) (Fin k) GF)
    (data : Fin k → Bytes) (parityInit : Fin m → Bytes) (size : Nat) :
    Fin m → Bytes :=
  fun j =>
    (List.finRange k).foldl
      (fun dst c =>
        multiply_accumulate_region dst (data c)
          (gen ⟨k + j.val, by have := j.isLt; omega⟩ c) size)
      (fun i => if i < size then 0 else parityInit j i)

/-- Modelled from the spec: `encode(data, parity, size)` (§4.4). -/
def encode (k m : Nat) (data : Fin k → Bytes) (parityInit : Fin m → Bytes)
    (size : Nat) : Fin m → Bytes :=
  encodeG (build_generator k m) data parityInit size

/-! ### recover -/

/-- Modelled from the spec: the ascending list of non-erased slots (§4.2 "rows
are chosen in ascending slot-index order, skipping erased … slots"). -/
def survivors (k m : Nat) (erased : Finset (Fin (k + m))) : List (Fin (k + m)) :=
  (List.finRange (k + m)).filter (fun r => r ∉ erased)

/-- The first k surviving rows, in ascending order (defined when at least k
slots survive). -/
def selRows (k m : Nat) (erased : Finset (Fin (k + m)))
    (h : ¬ (survivors k m erased).length < k) : Fin k → Fin (k + m) :=
  fun t =>
    (survivors k m erased).get ⟨t.val, lt_of_lt_of_le t.isLt (Nat.le_of_not_lt h)⟩

/-- The k×k decode submatrix: the selected surviving generator rows. -/
def decodeMatrix (k m : Nat) (erased : Finset (Fin (k + m)))
    (h : ¬ (survivors k m erased).length < k) : Matrix (Fin k) (Fin k) GF :=
  Matrix.of fun t c => build_generator k m (selRows k m erased h t) c

/-- Modelled from the spec: `select_and_invert` (§4.2) — inverts the selected
k×k submatrix over the field, failing with `SingularMatrix` when it is
singular. -/
def select_and_invert (k : Nat) (A : Matrix (Fin k) (Fin k) GF) :
    Except RsError (Matrix (Fin k) (Fin k) GF) :=
  if A.det = 0 then Except.error RsError.SingularMatrix
  else Except.ok (A.det⁻¹ • A.adjugate)

/-- The byte a surviving input slot contributes: its buffer when one is
supplied, the zero buffer when its pointer is absent (§3 "Zero-input
pattern"; the unit test's `recover_parts` leaves the pointers of zero-input
slots unset). -/
def inputByte {n : Nat} (input : Fin n → Option Bytes) (r : Fin n) (i : Nat) :
    GF :=
  ((input r).getD zeroBytes) i

/-- The recovered data fragments, one byte position at a time: the decode
inverse applied to the vector of selected surviving bytes (§4.4, recovery
step 3). -/
def recoveredData (k m : Nat) (input : Fin (k + m) → Option Bytes)
    (erased : Finset (Fin (k + m))) (h : ¬ (survivors k m erased).length < k)
    (Ainv : Matrix (Fin k) (Fin k) GF) (i : Nat) : Fin k → GF :=
  Ainv.mulVec (fun t => inputByte input (selRows k m erased h t) i)

/-- The reconstructed content of slot `e`: a recovered data fragment directly,
or a parity slot re-encoded from the recovered data with its own generator
row (§4.4, recovery step 3). -/
def recoveredSlot (k m : Nat) (input : Fin (k + m) → Option Bytes)
    (erased : Finset (Fin (k + m))) (h : ¬ (survivors k m erased).length < k)
    (Ainv : Matrix (Fin k) (Fin k) GF) (e : Fin (k + m)) (i : Nat) : GF :=
  if he : e.val < k then recoveredData k m input erased h Ainv i ⟨e.val, he⟩
  else ∑ c, build_generator k m e c * recoveredData k m input erased h Ainv i c

/-- Modelled from the spec: `recover(input, erased, output, size)` (§4.4).
A separate zero-input pattern is not an argument: a surviving slot whose
entry is `none` (a null pointer) is treated as the zero buffer.  Slots
flagged in `erased` are reconstructed into the output within the region,
which is otherwise left untouched. -/
def recover (k m : Nat) (input : Fin (k + m) → Option Bytes)
    (erased : Finset (Fin (k + m))) (outInit : Fin (k + m) → Bytes)
    (size : Nat) : Except RsError (Fin (k + m) → Bytes) :=
  if m < erased.card then Except.error RsError.TooManyErasures
  else if h : (survivors k m erased).length < k then
    Except.error RsError.InsufficientFragments
  else
    match select_and_invert k (decodeMatrix k m erased h) with
    | Except.error e => Except.error e
    | Except.ok Ainv =>
      Except.ok fun e i =>
        if e ∈ erased ∧ i < size then recoveredSlot k m input erased h Ainv e i
        else outInit e i

/-! ### Codec instances (§4.4 "Construction") -/

/-- Modelled from the spec: a Codec instance owns its generator matrix, built
once at construction for fixed (k, m) (§2, §4.4). -/
structure Codec where
  k : Nat
  m : Nat
  gen : Matrix (Fin (k + m)) (Fin k) GF

/-- Modelled from the spec: Codec construction, validating `k ≥ 1`,
`k ≤ k_max = 32`, `m ≤ m_max = 32` and building the generator matrix once;
fails with `InvalidDimensions` otherwise (§4.4, §6). -/
def mkCodec (k m : Nat) : Except RsError Codec :=
  if 1 ≤ k ∧ k ≤ 32 ∧ m ≤ 32 then Except.ok ⟨k, m, build_generator k m⟩
  else Except.error RsError.InvalidDimensions

/-- Encoding through a Codec instance, on flat slot-indexed fragment maps
(the `FragmentMap` arrays of the unit test). -/
def Codec.encodeMap (c : Codec) (data : Nat → Bytes) (parityInit : Nat → Bytes)
    (size : Nat) : Nat → Bytes :=
  fun j =>
    if h : j < c.m then
      encodeG c.gen (fun t => data t.val) (fun t => parityInit t.val) size ⟨j, h⟩
    else parityInit j

/-! ### Properties of the generator matrix -/

/-- The interpolation nodes of the k data slots, as a Fin-indexed family. -/
def nodeF (k : Nat) : Fin k → GF := fun c => node c.val

theorem node_inj {r r2 : Nat} (hr : r < 256) (hr2 : r2 < 256)
    (h : node r = node r2) : r = r2 := by
  have hv : r % 256 = r2 % 256 := congrArg GF.val h
  rwa [Nat.mod_eq_of_lt hr, Nat.mod_eq_of_lt hr2] at hv

theorem nodeF_injOn (k : Nat) (hk : k ≤ 256) :
    Set.InjOn (nodeF k) ↑(Finset.univ : Finset (Fin k)) := by
  intro a _ b _ h
  exact Fin.ext (node_inj (by omega) (by omega) h)

theorem eval_basisDivisor (x a b : GF) :
    Polynomial.eval x (Lagrange.basisDivisor a b) = (a - b)⁻¹ * (x - b) := by
  simp [Lagrange.basisDivisor]

theorem eval_lagrange_basis (k : Nat) (c : Fin k) (x : GF) :
    Polynomial.eval x (Lagrange.basis Finset.univ (nodeF k) c) = lagEval k c x := by
  rw [Lagrange.basis, Polynomial.eval_prod, lagEval]
  refine Finset.prod_congr rfl ?_
  intro j hj
  rw [eval_basisDivisor, mul_comm]
  rfl

theorem build_generator_systematic (k m : Nat) (hkm : k + m ≤ 256)
    {r : Fin (k + m)} (hr : r.val < k) (c : Fin k) :
    build_generator k m r c = if r.val = c.val then 1 else 0 := by
  have hx : node r.val = nodeF k ⟨r.val, hr⟩ := rfl
  have hb : build_generator k m r c
      = Polynomial.eval (nodeF k ⟨r.val, hr⟩) (Lagrange.basis Finset.univ (nodeF k) c) := by
    rw [eval_lagrange_basis]
    rfl
  rw [hb]
  by_cases hc : c = ⟨r.val, hr⟩
  · subst hc
    rw [Lagrange.eval_basis_self (nodeF_injOn k (by omega)) (Finset.mem_univ _)]
    simp
  · rw [Lagrange.eval_basis_of_ne hc (Finset.mem_univ _)]
    have : ¬ r.val = c.val := by
      intro hrc
      exact hc (Fin.ext hrc.symm)
    simp [this]

/-! ### Unfolding encode -/

theorem foldl_mac_apply {k : Nat} (data : Fin k → Bytes) (g : Fin k → GF)
    (size : Nat) (L : List (Fin k)) (acc : Bytes) (i : Nat) (hi : i < size) :
    (L.foldl (fun dst c => multiply_accumulate_region dst (data c) (g c) size)
        acc) i
      = acc i + (L.map fun c => data c i * g c).sum := by
  induction L generalizing acc with
  | nil => simp
  | cons c cs ih =>
    rw [List.foldl_cons, ih, List.map_cons, List.sum_cons]
    show multiply_accumulate_region acc (data c) (g c) size i + _ = _
    rw [multiply_accumulate_region]
    simp only [if_pos hi]
    rw [add_assoc]

theorem foldl_mac_apply_ge {k : Nat} (data : Fin k → Bytes) (g : Fin k → GF)
    (size : Nat) (L : List (Fin k)) (acc : Bytes) (i : Nat) (hi : ¬ i < size) :
    (L.foldl (fun dst c => multiply_accumulate_region dst (data c) (g c) size)
        acc) i = acc i := by
  induction L generalizing acc with
  | nil => rfl
  | cons c cs ih =>
    rw [List.foldl_cons, ih]
    show (if i < size then _ else acc i) = acc i
    rw [if_neg hi]

theorem encodeG_apply {k m : Nat} (gen : Matrix (Fin (k + m)) (Fin k) GF)
    (data : Fin k → Bytes) (parityInit : Fin m → Bytes) (size : Nat)
    (j : Fin m) (i : Nat) (hi : i < size) :
    encodeG gen data parityInit size j i
      = ∑ c, data c i * gen ⟨k + j.val, by have := j.isLt; omega⟩ c := by
  rw [encodeG]
  rw [foldl_mac_apply data _ size _ _ i hi]
  rw [if_pos hi, zero_add, ← Fin.sum_univ_def]

theorem encodeG_apply_ge {k m : Nat} (gen : Matrix (Fin (k + m)) (Fin k) GF)
    (data : Fin k → Bytes) (parityInit : Fin m → Bytes) (size : Nat)
    (j : Fin m) (i : Nat) (hi : ¬ i < size) :
    encodeG gen data parityInit size j i = parityInit j i := by
  rw [encodeG]
  rw [foldl_mac_apply_ge data _ size _ _ i hi, if_neg hi]

/-- The true content of slot `r` of the codeword determined by the data
fragments at one byte position: the generator matrix applied to the data
vector. -/
def slotValue (k m : Nat) (data : Fin k → Bytes) (r : Fin (k + m)) (i : Nat) :
    GF :=
  (build_generator k m).mulVec (fun c => data c i) r

theorem slotValue_data (k m : Nat) (hkm : k + m ≤ 256) (data : Fin k → Bytes)
    {r : Fin (k + m)} (hr : r.val < k) (i : Nat) :
    slotValue k m data r i = data ⟨r.val, hr⟩ i := by
  rw [slotValue, Matrix.mulVec]
  show ∑ c, build_generator k m r c * data c i = _
  have hstep : ∀ c : Fin k, build_generator k m r c * data c i
      = if (⟨r.val, hr⟩ : Fin k) = c then data c i else 0 := by
    intro c
    rw [build_generator_systematic k m hkm hr c]
    by_cases hc : r.val = c.val
    · rw [if_pos hc, one_mul,
        if_pos (show (⟨r.val, hr⟩ : Fin k) = c from Fin.ext hc)]
    · rw [if_neg hc, zero_mul,
        if_neg (show ¬ (⟨r.val, hr⟩ : Fin k) = c from
          fun h => hc (congrArg Fin.val h))]
  rw [Finset.sum_congr rfl fun c _ => hstep c, Finset.sum_ite_eq]
  simp

theorem encode_eq_slotValue (k m : Nat) (hkm : k + m ≤ 256)
    (data : Fin k → Bytes) (parityInit : Fin m → Bytes) (size : Nat)
    (j : Fin m) (i : Nat) (hi : i < size) :
    encode k m data parityInit size j i
      = slotValue k m data ⟨k + j.val, by have := j.isLt; omega⟩ i := by
  rw [encode, encodeG_apply _ _ _ _ _ _ hi, slotValue, Matrix.mulVec]
  show _ = ∑ c, build_generator k m _ c * data c i
  exact Finset.sum_congr rfl fun c _ => mul_comm _ _

/-! ### Properties of the surviving-row selection -/

theorem survivors_nodup (k m : Nat) (erased : Finset (Fin (k + m))) :
    (survivors k m erased).Nodup :=
  (List.nodup_finRange (k + m)).filter _

theorem mem_survivors (k m : Nat) (erased : Finset (Fin (k + m)))
    (r : Fin (k + m)) : r ∈ survivors k m erased ↔ r ∉ erased := by
  simp [survivors, List.mem_filter, List.mem_finRange]

theorem survivors_length (k m : Nat) (erased : Finset (Fin (k + m))) :
    (survivors k m erased).length = (k + m) - erased.card := by
  have hnd := survivors_nodup k m erased
  have htf : (survivors k m erased).toFinset = erasedᶜ := by
    ext r
    rw [List.mem_toFinset, mem_survivors, Finset.mem_compl]
  have hcard := List.toFinset_card_of_nodup hnd
  rw [htf, Finset.card_compl, Fintype.card_fin] at hcard
  omega

theorem selRows_not_erased (k m : Nat) (erased : Finset (Fin (k + m)))
    (h : ¬ (survivors k m erased).length < k) (t : Fin k) :
    selRows k m erased h t ∉ erased := by
  have hmem : selRows k m erased h t ∈ survivors k m erased := List.get_mem _ _ _
  exact (mem_survivors k m erased _).mp hmem

theorem selRows_injective (k m : Nat) (erased : Finset (Fin (k + m)))
    (h : ¬ (survivors k m erased).length < k) :
    Function.Injective (selRows k m erased h) := by
  intro t1 t2 ht
  have hnd := survivors_nodup k m erased
  have hinj := List.nodup_iff_injective_get.mp hnd ht
  have hval : (t1 : Nat) = (t2 : Nat) := by
    simpa only [Fin.mk.injEq] using hinj
  exact Fin.ext hval

/-! ### The MDS property: every k generator rows are invertible -/

theorem submatrix_det_ne_zero (k m : Nat) (hk : 1 ≤ k) (hkm : k + m ≤ 256)
    (rows : Fin k → Fin (k + m)) (hinj : Function.Injective rows) :
    (Matrix.of fun t c => build_generator k m (rows t) c).det ≠ 0 := by
  intro hdet
  obtain ⟨v, hv0, hmul⟩ := Matrix.exists_mulVec_eq_zero_iff.mpr hdet
  have hk256 : k ≤ 256 := by omega
  have hInjF : Set.InjOn (nodeF k) ↑(Finset.univ : Finset (Fin k)) :=
    nodeF_injOn k hk256
  have hInjR : Set.InjOn (fun t => node (rows t).val)
      ↑(Finset.univ : Finset (Fin k)) := by
    intro a _ b _ hab
    have h1 : (rows a).val = (rows b).val := by
      have hla := (rows a).isLt
      have hlb := (rows b).isLt
      exact node_inj (by omega) (by omega) hab
    exact hinj (Fin.ext h1)
  set p : Polynomial GF :=
    ∑ c : Fin k, Polynomial.C (v c) * Lagrange.basis Finset.univ (nodeF k) c
    with hp
  have hdegc : ∀ c : Fin k,
      (Polynomial.C (v c) * Lagrange.basis Finset.univ (nodeF k) c).degree
        < ((Finset.univ : Finset (Fin k)).card : WithBot Nat) := by
    intro c
    refine lt_of_le_of_lt (Polynomial.degree_mul_le _ _) ?_
    have h2 := Lagrange.degree_basis hInjF (Finset.mem_univ c)
    have hk1 : ((Finset.univ : Finset (Fin k)).card - 1 : Nat)
        < (Finset.univ : Finset (Fin k)).card := by
      rw [Finset.card_univ, Fintype.card_fin]
      omega
    calc (Polynomial.C (v c)).degree
          + (Lagrange.basis Finset.univ (nodeF k) c).degree
        ≤ 0 + (Lagrange.basis Finset.univ (nodeF k) c).degree :=
          add_le_add_right Polynomial.degree_C_le _
      _ = (Lagrange.basis Finset.univ (nodeF k) c).degree := zero_add _
      _ < ((Finset.univ : Finset (Fin k)).card : WithBot Nat) := by
          rw [h2]
          exact_mod_cast hk1
  have hdeg : p.degree < ((Finset.univ : Finset (Fin k)).card : WithBot Nat) := by
    refine lt_of_le_of_lt (Polynomial.degree_sum_le _ _) ?_
    rw [Finset.sup_lt_iff (lt_of_le_of_lt bot_le (hdegc ⟨0, by omega⟩))]
    exact fun c _ => hdegc c
  have heval : ∀ t : Fin k, Polynomial.eval (node (rows t).val) p = 0 := by
    intro t
    have hrow := congrFun hmul t
    have hrow2 : ∑ c, build_generator k m (rows t) c * v c = 0 := by
      simpa [Matrix.mulVec, Matrix.dotProduct] using hrow
    rw [hp, Polynomial.eval_finset_sum]
    calc ∑ c, Polynomial.eval (node (rows t).val)
            (Polynomial.C (v c) * Lagrange.basis Finset.univ (nodeF k) c)
        = ∑ c, v c * lagEval k c (node (rows t).val) := by
          refine Finset.sum_congr rfl fun c _ => ?_
          rw [Polynomial.eval_mul, Polynomial.eval_C, eval_lagrange_basis]
      _ = ∑ c, build_generator k m (rows t) c * v c := by
          refine Finset.sum_congr rfl fun c _ => ?_
          rw [mul_comm]
          rfl
      _ = 0 := hrow2
  have hp0 : p = 0 :=
    Polynomial.eq_zero_of_degree_lt_of_eval_index_eq_zero Finset.univ hInjR hdeg
      (fun t _ => heval t)
  have hvc : ∀ c0 : Fin k, v c0 = 0 := by
    intro c0
    have h1 : Polynomial.eval (nodeF k c0) p = v c0 := by
      rw [hp, Polynomial.eval_finset_sum]
      rw [Finset.sum_eq_single c0]
      · rw [Polynomial.eval_mul, Polynomial.eval_C,
          Lagrange.eval_basis_self hInjF (Finset.mem_univ c0), mul_one]
      · intro b _ hb
        rw [Polynomial.eval_mul, Polynomial.eval_C,
          Lagrange.eval_basis_of_ne hb (Finset.mem_univ c0), mul_zero]
      · intro habs
        exact absurd (Finset.mem_univ c0) habs
    rw [hp0] at h1
    simpa using h1.symm
  exact hv0 (funext hvc)

theorem decodeMatrix_det_ne_zero (k m : Nat) (hk : 1 ≤ k) (hkm : k + m ≤ 256)
    (erased : Finset (Fin (k + m)))
    (h : ¬ (survivors k m erased).length < k) :
    (decodeMatrix k m erased h).det ≠ 0 :=
  submatrix_det_ne_zero k m hk hkm _ (selRows_injective k m erased h)

theorem smul_adjugate_mul {k : Nat} (A : Matrix (Fin k) (Fin k) GF)
    (h : A.det ≠ 0) : (A.det⁻¹ • A.adjugate) * A = 1 := by
  rw [Matrix.smul_mul, Matrix.adjugate_mul, smul_smul, inv_mul_cancel₀ h,
    one_smul]

/-! ### Correctness of recover -/

theorem recover_eq_ok (k m : Nat)
    (input : Fin (k + m) → Option Bytes) (erased : Finset (Fin (k + m)))
    (outInit : Fin (k + m) → Bytes) (size : Nat)
    (hno : ¬ m < erased.card) (hlen : ¬ (survivors k m erased).length < k)
    (hdet : (decodeMatrix k m erased hlen).det ≠ 0) :
    recover k m input erased outInit size = Except.ok fun e i =>
      if e ∈ erased ∧ i < size then
        recoveredSlot k m input erased hlen
          ((decodeMatrix k m erased hlen).det⁻¹
            • (decodeMatrix k m erased hlen).adjugate) e i
      else outInit e i := by
  simp only [recover, select_and_invert]
  rw [if_neg hno, dif_neg hlen, if_neg hdet]

theorem recover_correct (k m : Nat) (hk : 1 ≤ k) (hkm : k + m ≤ 256)
    (size : Nat) (data : Fin k → Bytes)
    (input : Fin (k + m) → Option Bytes) (erased : Finset (Fin (k + m)))
    (outInit : Fin (k + m) → Bytes)
    (hcard : erased.card ≤ m)
    (hinput : ∀ r, r ∉ erased → ∀ i, i < size →
      inputByte input r i = slotValue k m data r i) :
    ∃ out, recover k m input erased outInit size = Except.ok out ∧
      (∀ e ∈ erased, ∀ i, i < size → out e i = slotValue k m data e i) ∧
      (∀ e i, e ∉ erased ∨ ¬ i < size → out e i = outInit e i) := by
  have hno : ¬ m < erased.card := by omega
  have hlen : ¬ (survivors k m erased).length < k := by
    have hl := survivors_length k m erased
    omega
  have hdet := decodeMatrix_det_ne_zero k m hk hkm erased hlen
  set Ainv := (decodeMatrix k m erased hlen).det⁻¹
    • (decodeMatrix k m erased hlen).adjugate with hAinv
  have hdata : ∀ i, i < size →
      recoveredData k m input erased hlen Ainv i = fun c => data c i := by
    intro i hi
    have hy : (fun t => inputByte input (selRows k m erased hlen t) i)
        = (decodeMatrix k m erased hlen).mulVec (fun c => data c i) := by
      funext t
      rw [hinput _ (selRows_not_erased k m erased hlen t) i hi]
      rfl
    rw [recoveredData, hy, Matrix.mulVec_mulVec, hAinv,
      smul_adjugate_mul _ hdet, Matrix.one_mulVec]
  have hslot : ∀ (e : Fin (k + m)) (i : Nat), i < size →
      recoveredSlot k m input erased hlen Ainv e i = slotValue k m data e i := by
    intro e i hi
    by_cases he : e.val < k
    · have h1 : recoveredSlot k m input erased hlen Ainv e i
          = recoveredData k m input erased hlen Ainv i ⟨e.val, he⟩ := by
        simp only [recoveredSlot]
        rw [dif_pos he]
      rw [h1, hdata i hi]
      exact (slotValue_data k m hkm data he i).symm
    · have h1 : recoveredSlot k m input erased hlen Ainv e i
          = ∑ c, build_generator k m e c
              * recoveredData k m input erased hlen Ainv i c := by
        simp only [recoveredSlot]
        rw [dif_neg he]
      rw [h1, hdata i hi]
      rfl
  refine ⟨_, recover_eq_ok k m input erased outInit size hno hlen hdet, ?_, ?_⟩
  · intro e he i hi
    exact (if_pos (⟨he, hi⟩ : e ∈ erased ∧ i < size)).trans (hslot e i hi)
  · intro e i hcond
    have hc : ¬ (e ∈ erased ∧ i < size) := by tauto
    exact if_neg hc

theorem recover_congr (k m : Nat)
    (input1 input2 : Fin (k + m) → Option Bytes)
    (erased : Finset (Fin (k + m))) (outInit : Fin (k + m) → Bytes)
    (size : Nat)
    (h : ∀ r, r ∉ erased → ∀ i, i < size →
      inputByte input1 r i = inputByte input2 r i) :
    recover k m input1 erased outInit size
      = recover k m input2 erased outInit size := by
  simp only [recover]
  by_cases hno : m < erased.card
  · rw [if_pos hno, if_pos hno]
  · rw [if_neg hno, if_neg hno]
    by_cases hlen : (survivors k m erased).length < k
    · rw [dif_pos hlen, dif_pos hlen]
    · rw [dif_neg hlen, dif_neg hlen]
      cases hsel : select_and_invert k (decodeMatrix k m erased hlen) with
      | error e => rfl
      | ok Ainv =>
        show (Except.ok fun e i =>
            if e ∈ erased ∧ i < size then
              recoveredSlot k m input1 erased hlen Ainv e i
            else outInit e i)
          = (Except.ok (ε := RsError) fun e i =>
            if e ∈ erased ∧ i < size then
              recoveredSlot k m input2 erased hlen Ainv e i
            else outInit e i)
        congr 1
        funext e i
        by_cases hc : e ∈ erased ∧ i < size
        · rw [if_pos hc, if_pos hc]
          have hd : recoveredData k m input1 erased hlen Ainv i
              = recoveredData k m input2 erased hlen Ainv i := by
            simp only [recoveredData]
            have harg : (fun t => inputByte input1 (selRows k m erased hlen t) i)
                = fun t => inputByte input2 (selRows k m erased hlen t) i := by
              funext t
              exact h _ (selRows_not_erased k m erased hlen t) i hc.2
            rw [harg]
          simp only [recoveredSlot]
          rw [hd]
        · rw [if_neg hc, if_neg hc]

theorem recover_tooMany (k m : Nat) (input : Fin (k + m) → Option Bytes)
    (erased : Finset (Fin (k + m))) (outInit : Fin (k + m) → Bytes)
    (size : Nat) (h : m < erased.card) :
    recover k m input erased outInit size
      = Except.error RsError.TooManyErasures := by
  simp only [recover]
  rw [if_pos h]

theorem recover_ne_insufficient (k m : Nat)
    (input : Fin (k + m) → Option Bytes) (erased : Finset (Fin (k + m)))
    (outInit : Fin (k + m) → Bytes) (size : Nat) :
    recover k m input erased outInit size
      ≠ Except.error RsError.InsufficientFragments := by
  simp only [recover]
  by_cases hno : m < erased.card
  · rw [if_pos hno]
    intro habs
    exact absurd (Except.error.inj habs) (by decide)
  · rw [if_neg hno]
    have hlen : ¬ (survivors k m erased).length < k := by
      have hl := survivors_length k m erased
      omega
    rw [dif_neg hlen]
    cases hsel : select_and_invert k (decodeMatrix k m erased hlen) with
    | error e =>
      have he : e = RsError.SingularMatrix := by
        revert hsel
        simp only [select_and_invert]
        split
        · intro hx
          exact (Except.error.inj hx).symm
        · intro hx
          exact absurd hx (by simp)
      intro habs
      rw [he] at habs
      exact absurd (Except.error.inj habs) (by decide)
    | ok Ainv =>
      intro habs
      exact Except.noConfusion habs

/-! ### The original stripe: data fragments and their encoded parity -/

/-- The original content of every slot of a stripe: the data fragments at
slots `0..k-1` and the parity that `encode` produced for them at slots
`k..k+m-1`. -/
def stripe (k m : Nat) (data : Fin k → Bytes) (parityInit : Fin m → Bytes)
    (size : Nat) (r : Fin (k + m)) : Bytes :=
  if h : r.val < k then data ⟨r.val, h⟩
  else encode k m data parityInit size ⟨r.val - k, by
    have := r.isLt
    omega⟩

theorem stripe_eq_slotValue (k m : Nat) (hkm : k + m ≤ 256)
    (data : Fin k → Bytes) (parityInit : Fin m → Bytes) (size : Nat)
    (r : Fin (k + m)) (i : Nat) (hi : i < size) :
    stripe k m data parityInit size r i = slotValue k m data r i := by
  by_cases hr : r.val < k
  · have h1 : stripe k m data parityInit size r = data ⟨r.val, hr⟩ := by
      simp only [stripe]
      rw [dif_pos hr]
    rw [h1]
    exact (slotValue_data k m hkm data hr i).symm
  · have h1 : stripe k m data parityInit size r
        = encode k m data parityInit size ⟨r.val - k, by
            have := r.isLt
            omega⟩ := by
      simp only [stripe]
      rw [dif_neg hr]
    rw [h1, encode_eq_slotValue k m hkm data parityInit size _ i hi]
    have h2 : (⟨k + (r.val - k), by
        have := r.isLt
        omega⟩ : Fin (k + m)) = r := Fin.ext (by
      show k + (r.val - k) = r.val
      omega)
    rw [h2]

/-! ### The claims -/

/-- C1: for every (k, m) within bounds, every set of k data fragments of a
common size, and every erasure pattern flagging at most m of the k+m slots
(data and/or parity, in any combination), `recover` applied to the surviving
fragments of an encode of that data reconstructs every erased slot
bit-for-bit equal to its original content — the original data fragment for a
data slot, the encode-produced parity for a parity slot. -/
theorem claim_C1_any_k_recoverability
    (k m : Nat) (hk : 1 ≤ k) (hkmax : k ≤ 32) (hmmax : m ≤ 32)
    (size : Nat) (data : Fin k → Bytes) (parityInit : Fin m → Bytes)
    (outInit : Fin (k + m) → Bytes) (erased : Finset (Fin (k + m)))
    (hcard : erased.card ≤ m) :
    ∃ out,
      recover k m (fun r => some (stripe k m data parityInit size r)) erased
          outInit size = Except.ok out ∧
      ∀ e ∈ erased, ∀ i, i < size →
        out e i = stripe k m data parityInit size e i := by
  have hkm : k + m ≤ 256 := by omega
  have hin : ∀ r, r ∉ erased → ∀ i, i < size →
      inputByte (fun r => some (stripe k m data parityInit size r)) r i
        = slotValue k m data r i := by
    intro r _ i hi
    show stripe k m data parityInit size r i = slotValue k m data r i
    exact stripe_eq_slotValue k m hkm data parityInit size r i hi
  obtain ⟨out, hok, hcorr, _⟩ :=
    recover_correct k m hk hkm size data _ erased outInit hcard hin
  refine ⟨out, hok, fun e he i hi => ?_⟩
  rw [hcorr e he i hi]
  exact (stripe_eq_slotValue k m hkm data parityInit size e i hi).symm

theorem claim_C1_witness :
    ∃ out,
      recover 2 1
          (fun r => some (stripe 2 1 (fun _ _ => 0) (fun _ _ => 0) 1 r))
          {0} (fun _ _ => 0) 1 = Except.ok out ∧
      ∀ e ∈ ({0} : Finset (Fin (2 + 1))), ∀ i, i < 1 →
        out e i = stripe 2 1 (fun _ _ => 0) (fun _ _ => 0) 1 e i :=
  claim_C1_any_k_recoverability 2 1 (by omega) (by omega) (by omega) 1
    (fun _ _ => 0) (fun _ _ => 0) (fun _ _ => 0) {0} (by decide)

/-- C2: for every valid call `encode(data, parity, size)`, each parity slot j
is the GF(2^8) linear combination of the data fragments weighted by row k+j
of the generator, applied byte-by-byte, and the code is systematic: the top
k×k submatrix of the generator is the identity. -/
theorem claim_C2_encode_formula
    (k m : Nat) (hk : 1 ≤ k) (hkmax : k ≤ 32) (hmmax : m ≤ 32) :
    (∀ (data : Fin k → Bytes) (parityInit : Fin m → Bytes) (size : Nat)
        (j : Fin m) (i : Nat), i < size →
        encode k m data parityInit size j i
          = ∑ c, data c i * build_generator k m
              ⟨k + j.val, by have := j.isLt; omega⟩ c) ∧
      ∀ (r : Fin (k + m)), r.val < k → ∀ c : Fin k,
        build_generator k m r c = if r.val = c.val then 1 else 0 := by
  constructor
  · intro data parityInit size j i hi
    rw [encode]
    exact encodeG_apply _ data parityInit size j i hi
  · intro r hr c
    exact build_generator_systematic k m (by omega) hr c

theorem claim_C2_witness :
    encode 1 1 (fun _ _ => 1) (fun _ _ => 0) 1 0 0
        = ∑ c, (fun (_ : Fin 1) (_ : Nat) => (1 : GF)) c 0
            * build_generator 1 1 ⟨1 + (0 : Fin 1).val, by decide⟩ c ∧
      build_generator 1 1 0 0 = if (0 : Fin (1 + 1)).val = (0 : Fin 1).val
        then 1 else 0 :=
  ⟨(claim_C2_encode_formula 1 1 (by omega) (by omega) (by omega)).1
      (fun _ _ => 1) (fun _ _ => 0) 1 0 0 (by omega),
    (claim_C2_encode_formula 1 1 (by omega) (by omega) (by omega)).2
      0 (by decide) 0⟩

/-- C3: a data fragment that is entirely zero within the call's size may be
marked zero-input — its pointer left unset — instead of being supplied; the
recover result is identical to supplying the real all-zero buffer. -/
theorem claim_C3_zero_input_equivalence
    (k m : Nat) (size : Nat)
    (input : Fin (k + m) → Option Bytes) (erased : Finset (Fin (k + m)))
    (outInit : Fin (k + m) → Bytes)
    (z : Fin (k + m)) (hzk : z.val < k) (hz : z ∉ erased)
    (zb : Bytes) (hzb : ∀ i, i < size → zb i = 0) (hin : input z = some zb) :
    recover k m input erased outInit size
      = recover k m (Function.update input z none) erased outInit size := by
  apply recover_congr
  intro r hr i hi
  by_cases hrz : r = z
  · subst hrz
    simp only [inputByte, hin, Function.update_same]
    show zb i = zeroBytes i
    rw [hzb i hi]
    rfl
  · simp only [inputByte, Function.update_noteq hrz]

theorem claim_C3_witness :
    recover 1 0 (fun _ => some (fun _ => 0)) ∅ (fun _ _ => 0) 1
      = recover 1 0
          (Function.update (fun _ => some (fun _ => 0)) 0 none) ∅
          (fun _ _ => 0) 1 :=
  claim_C3_zero_input_equivalence 1 0 1 (fun _ => some (fun _ => 0)) ∅
    (fun _ _ => 0) 0 (by omega) (by decide) (fun _ => 0)
    (fun _ _ => rfl) rfl

/-- C4: field arithmetic over GF(2^8): `add` is bitwise XOR, involutive,
commutative and associative; `multiply` has 0 as absorbing and 1 as neutral
element, is commutative and distributes over `add`; for nonzero `a`,
`inverse(a)` is the unique `b` with `multiply(a, b) = 1`, and `inverse`
fails on 0. -/
theorem claim_C4_field_arithmetic :
    (∀ a b : GF, (GF.add a b).val = a.val ^^^ b.val) ∧
    (∀ a b : GF, GF.add (GF.add a b) b = a) ∧
    (∀ a b : GF, GF.add a b = GF.add b a) ∧
    (∀ a b c : GF, GF.add (GF.add a b) c = GF.add a (GF.add b c)) ∧
    (∀ a : GF, GF.multiply a 0 = 0) ∧
    (∀ a : GF, GF.multiply a 1 = a) ∧
    (∀ a b : GF, GF.multiply a b = GF.multiply b a) ∧
    (∀ a b c : GF, GF.multiply a (GF.add b c)
      = GF.add (GF.multiply a b) (GF.multiply a c)) ∧
    (∀ a : GF, a ≠ 0 → ∃ b, GF.inverse a = some b ∧ GF.multiply a b = 1 ∧
      ∀ b2, GF.multiply a b2 = 1 → b2 = b) ∧
    GF.inverse 0 = none := by
  refine ⟨fun a b => rfl, ?_, fun a b => add_comm a b,
    fun a b c => add_assoc a b c, fun a => mul_zero a, fun a => mul_one a,
    fun a b => mul_comm a b, fun a b c => mul_add a b c, ?_, ?_⟩
  · intro a b
    apply GF.eq_of_val_eq
    show (a.val ^^^ b.val) ^^^ b.val = a.val
    rw [Nat.xor_assoc, Nat.xor_self, Nat.xor_zero]
  · intro a ha
    refine ⟨a⁻¹, ?_, mul_inv_cancel₀ ha, ?_⟩
    · simp only [GF.inverse]
      rw [if_neg ha]
      rfl
    · intro b2 hb2
      have hb2m : a * b2 = 1 := hb2
      have h1 := congrArg (fun x => a⁻¹ * x) hb2m
      simp only at h1
      rwa [← mul_assoc, inv_mul_cancel₀ ha, one_mul, mul_one] at h1
  · simp [GF.inverse]

theorem claim_C4_witness :
    ∃ b, GF.inverse ⟨2, by omega⟩ = some b ∧
      GF.multiply ⟨2, by omega⟩ b = 1 ∧
      ∀ b2, GF.multiply ⟨2, by omega⟩ b2 = 1 → b2 = b :=
  (claim_C4_field_arithmetic.2.2.2.2.2.2.2.2.1) ⟨2, by omega⟩ (by decide)

/-- C5: whenever the erased set's count exceeds m — equivalently, fewer than
k survivors remain overall — `recover` fails with `TooManyErasures`. -/
theorem claim_C5_too_many_erasures
    (k m : Nat) (input : Fin (k + m) → Option Bytes)
    (erased : Finset (Fin (k + m))) (outInit : Fin (k + m) → Bytes)
    (size : Nat) (h : m < erased.card) :
    recover k m input erased outInit size
      = Except.error RsError.TooManyErasures :=
  recover_tooMany k m input erased outInit size h

theorem claim_C5_witness :
    recover 1 1 (fun _ => none) Finset.univ (fun _ _ => 0) 4
      = Except.error RsError.TooManyErasures :=
  claim_C5_too_many_erasures 1 1 (fun _ => none) Finset.univ (fun _ _ => 0) 4
    (by decide)

/-- C6, counterexample: a call whose erased count exceeds m does fail, but
with `TooManyErasures`, not `InsufficientFragments`. -/
theorem claim_C6_counterexample :
    recover 1 1 (fun _ => none) Finset.univ (fun _ _ => 0) 1
        = Except.error RsError.TooManyErasures ∧
      recover 1 1 (fun _ => none) Finset.univ (fun _ _ => 0) 1
        ≠ Except.error RsError.InsufficientFragments := by
  have h := recover_tooMany 1 1 (fun _ => none) Finset.univ (fun _ _ => 0) 1
    (by decide)
  refine ⟨h, ?_⟩
  rw [h]
  intro habs
  exact absurd (Except.error.inj habs) (by decide)

/-- C6, amended: at the public interface an absent pointer on a non-erased
slot is zero-input, so every non-erased slot is usable and "fewer than k
usable slots" happens exactly when the erased count exceeds m; such calls
fail with `TooManyErasures`, and `InsufficientFragments` is never
returned. -/
theorem claim_C6_insufficient_fragments_amended
    (k m : Nat) (input : Fin (k + m) → Option Bytes)
    (erased : Finset (Fin (k + m))) (outInit : Fin (k + m) → Bytes)
    (size : Nat) :
    (m < erased.card →
        recover k m input erased outInit size
          = Except.error RsError.TooManyErasures) ∧
      recover k m input erased outInit size
        ≠ Except.error RsError.InsufficientFragments :=
  ⟨recover_tooMany k m input erased outInit size,
    recover_ne_insufficient k m input erased outInit size⟩

theorem claim_C6_witness :
    (recover 1 1 (fun _ => some zeroBytes) Finset.univ (fun _ _ => 0) 2
        = Except.error RsError.TooManyErasures) ∧
      recover 1 1 (fun _ => some zeroBytes) Finset.univ (fun _ _ => 0) 2
        ≠ Except.error RsError.InsufficientFragments :=
  ⟨(claim_C6_insufficient_fragments_amended 1 1 (fun _ => some zeroBytes)
      Finset.univ (fun _ _ => 0) 2).1 (by decide),
    (claim_C6_insufficient_fragments_amended 1 1 (fun _ => some zeroBytes)
      Finset.univ (fun _ _ => 0) 2).2⟩

/-- C7: every size-k subset of the generator's k+m rows is invertible over
GF(2^8), so `select_and_invert` never takes its `SingularMatrix` branch on k
distinct surviving rows, and `recover` never returns `SingularMatrix`. -/
theorem claim_C7_generator_invariant
    (k m : Nat) (hk : 1 ≤ k) (hkmax : k ≤ 32) (hmmax : m ≤ 32) :
    (∀ rows : Fin k → Fin (k + m), Function.Injective rows →
        (Matrix.of fun t c => build_generator k m (rows t) c).det ≠ 0) ∧
      (∀ rows : Fin k → Fin (k + m), Function.Injective rows →
        select_and_invert k (Matrix.of fun t c => build_generator k m (rows t) c)
          ≠ Except.error RsError.SingularMatrix) ∧
      ∀ (input : Fin (k + m) → Option Bytes) (erased : Finset (Fin (k + m)))
        (outInit : Fin (k + m) → Bytes) (size : Nat),
        recover k m input erased outInit size
          ≠ Except.error RsError.SingularMatrix := by
  have hkm : k + m ≤ 256 := by omega
  refine ⟨fun rows hinj => submatrix_det_ne_zero k m hk hkm rows hinj, ?_, ?_⟩
  · intro rows hinj
    simp only [select_and_invert]
    rw [if_neg (submatrix_det_ne_zero k m hk hkm rows hinj)]
    intro habs
    exact Except.noConfusion habs
  · intro input erased outInit size
    simp only [recover]
    by_cases hno : m < erased.card
    · rw [if_pos hno]
      intro habs
      exact absurd (Except.error.inj habs) (by decide)
    · rw [if_neg hno]
      by_cases hlen : (survivors k m erased).length < k
      · rw [dif_pos hlen]
        intro habs
        exact absurd (Except.error.inj habs) (by decide)
      · rw [dif_neg hlen]
        have hdet := decodeMatrix_det_ne_zero k m hk hkm erased hlen
        have hsel : select_and_invert k (decodeMatrix k m erased hlen)
            = Except.ok ((decodeMatrix k m erased hlen).det⁻¹
              • (decodeMatrix k m erased hlen).adjugate) := by
          simp only [select_and_invert]
          rw [if_neg hdet]
        rw [hsel]
        intro habs
        exact Except.noConfusion habs

theorem claim_C7_witness :
    (Matrix.of fun t c => build_generator 2 1
        (Fin.castLE (by omega) t) c).det ≠ 0 ∧
      recover 2 1 (fun _ => none) ∅ (fun _ _ => 0) 1
        ≠ Except.error RsError.SingularMatrix :=
  ⟨(claim_C7_generator_invariant 2 1 (by omega) (by omega) (by omega)).1
      (Fin.castLE (by omega)) (by decide),
    (claim_C7_generator_invariant 2 1 (by omega) (by omega) (by omega)).2.2
      (fun _ => none) ∅ (fun _ _ => 0) 1⟩

/-- C8: construction is deterministic — two Codec instances built with the
same (k, m) are equal and produce bit-for-bit identical parity for identical
input bytes; no hidden randomness or state influences encoding. -/
theorem claim_C8_deterministic_construction
    (k m : Nat) (c1 c2 : Codec)
    (h1 : mkCodec k m = Except.ok c1) (h2 : mkCodec k m = Except.ok c2) :
    c1 = c2 ∧
      ∀ (data : Nat → Bytes) (parityInit : Nat → Bytes) (size : Nat),
        c1.encodeMap data parityInit size = c2.encodeMap data parityInit size := by
  have hc : c1 = c2 := by
    rw [h1] at h2
    exact Except.ok.inj h2
  exact ⟨hc, fun data parityInit size => by rw [hc]⟩

theorem claim_C8_witness :
    (⟨4, 2, build_generator 4 2⟩ : Codec) = ⟨4, 2, build_generator 4 2⟩ ∧
      Codec.encodeMap ⟨4, 2, build_generator 4 2⟩ (fun _ => zeroBytes)
          (fun _ => zeroBytes) 8
        = Codec.encodeMap ⟨4, 2, build_generator 4 2⟩ (fun _ => zeroBytes)
          (fun _ => zeroBytes) 8 :=
  ⟨(claim_C8_deterministic_construction 4 2 _ _ rfl rfl).1,
    (claim_C8_deterministic_construction 4 2 _ _ rfl rfl).2
      (fun _ => zeroBytes) (fun _ => zeroBytes) 8⟩

/-- C9: the public `recover` takes no separate zero-input pattern argument —
a non-erased slot is zero-input exactly when its input entry is left unset —
and recovery with such null entries among the survivors succeeds and is
byte-exact, provided those slots' original content is all-zero within the
call's size. -/
theorem claim_C9_null_is_zero_input
    (k m : Nat) (hk : 1 ≤ k) (hkmax : k ≤ 32) (hmmax : m ≤ 32)
    (size : Nat) (data : Fin k → Bytes) (parityInit : Fin m → Bytes)
    (outInit : Fin (k + m) → Bytes) (erased : Finset (Fin (k + m)))
    (zeroIn : Finset (Fin (k + m))) (hcard : erased.card ≤ m)
    (hdisj : ∀ r ∈ zeroIn, r ∉ erased)
    (hzero : ∀ r ∈ zeroIn, ∀ i, i < size →
      stripe k m data parityInit size r i = 0) :
    ∃ out,
      recover k m
          (fun r => if r ∈ zeroIn then none
            else some (stripe k m data parityInit size r))
          erased outInit size = Except.ok out ∧
      ∀ e ∈ erased, ∀ i, i < size →
        out e i = stripe k m data parityInit size e i := by
  have hkm : k + m ≤ 256 := by omega
  have hin : ∀ r, r ∉ erased → ∀ i, i < size →
      inputByte (fun r => if r ∈ zeroIn then none
          else some (stripe k m data parityInit size r)) r i
        = slotValue k m data r i := by
    intro r _ i hi
    by_cases hrz : r ∈ zeroIn
    · have h0 := hzero r hrz i hi
      simp only [inputByte, if_pos hrz]
      calc (Option.getD none zeroBytes) i = (0 : GF) := rfl
        _ = stripe k m data parityInit size r i := h0.symm
        _ = slotValue k m data r i :=
            stripe_eq_slotValue k m hkm data parityInit size r i hi
    · simp only [inputByte, if_neg hrz]
      exact stripe_eq_slotValue k m hkm data parityInit size r i hi
  obtain ⟨out, hok, hcorr, _⟩ :=
    recover_correct k m hk hkm size data _ erased outInit hcard hin
  refine ⟨out, hok, fun e he i hi => ?_⟩
  rw [hcorr e he i hi]
  exact (stripe_eq_slotValue k m hkm data parityInit size e i hi).symm

theorem claim_C9_witness :
    ∃ out,
      recover 2 1
          (fun r => if r ∈ ({0} : Finset (Fin (2 + 1))) then none
            else some (stripe 2 1 (fun _ _ => 0) (fun _ _ => 0) 1 r))
          {2} (fun _ _ => 0) 1 = Except.ok out ∧
      ∀ e ∈ ({2} : Finset (Fin (2 + 1))), ∀ i, i < 1 →
        out e i = stripe 2 1 (fun _ _ => 0) (fun _ _ => 0) 1 e i :=
  claim_C9_null_is_zero_input 2 1 (by omega) (by omega) (by omega) 1
    (fun _ _ => 0) (fun _ _ => 0) (fun _ _ => 0) {2} {0} (by decide)
    (by decide) (by decide)

/-- C10: encode fully overwrites each parity output buffer independently of
its prior content — parity bytes within the region do not depend on the
initial buffer contents — and encoding again into the buffers encode just
filled leaves them unchanged. -/
theorem claim_C10_encode_overwrites
    (k m : Nat) (data : Fin k → Bytes) (size : Nat) :
    (∀ (parityInit parityInit2 : Fin m → Bytes) (j : Fin m) (i : Nat),
        i < size →
        encode k m data parityInit size j i
          = encode k m data parityInit2 size j i) ∧
      ∀ parityInit : Fin m → Bytes,
        encode k m data (encode k m data parityInit size) size
          = encode k m data parityInit size := by
  constructor
  · intro p1 p2 j i hi
    show encodeG (build_generator k m) data p1 size j i
      = encodeG (build_generator k m) data p2 size j i
    rw [encodeG_apply _ _ _ _ _ _ hi, encodeG_apply _ _ _ _ _ _ hi]
  · intro p
    funext j i
    by_cases hi : i < size
    · show encodeG (build_generator k m) data (encode k m data p size) size j i
        = encodeG (build_generator k m) data p size j i
      rw [encodeG_apply _ _ _ _ _ _ hi, encodeG_apply _ _ _ _ _ _ hi]
    · show encodeG (build_generator k m) data (encode k m data p size) size j i
        = encode k m data p size j i
      rw [encodeG_apply_ge _ _ _ _ _ _ hi]

theorem claim_C10_witness :
    encode 1 1 (fun _ _ => 1) (fun _ _ => ⟨255, by omega⟩) 1 0 0
      = encode 1 1 (fun _ _ => 1) (fun _ _ => 0) 1 0 0 :=
  (claim_C10_encode_overwrites 1 1 (fun _ _ => 1) 1).1
    (fun _ _ => ⟨255, by omega⟩) (fun _ _ => 0) 0 0 (by omega)
